import Mathlib

/-!
# Verification of `projects/whydense/scalar_sdrs.py`

Shallow embedding of the Monte-Carlo simulation core of `scalar_sdrs.py`.

Modelling conventions:

* Real-valued tensor entries are rationals (`ℚ`).
* Randomness is made explicit: every call of `torch.Tensor.uniform_(lo, hi)`
  is modelled by a caller-supplied matrix `us` of raw draws in `[0, 1]`,
  turned into values by `uniformVal lo hi`, and every call of
  `np.random.permutation m` is modelled by a caller-supplied list that the
  theorems assume to be a permutation of `List.range m`.
* A batch of vectors (a 2-D tensor of shape `m × n`) is a function
  `ℕ → ℕ → ℚ` (row index, then column index); only indices below the
  stated bounds are meaningful.
* Python code that can raise (`IndexError` from out-of-range indexing,
  `ZeroDivisionError` from division by zero, `KeyError` from a missing
  dictionary key) is embedded in `Except String`, the error string naming
  the Python exception class.
* Python 3's builtin `round` rounds halves to even; `pyRound` models it.
-/

/-- `uniform_(lo, hi)` applied to one raw draw `u ∈ [0,1]`. -/
def uniformVal (lo hi u : ℚ) : ℚ := lo + u * (hi - lo)

/-- The value an entry gets in `get_sparse_tensor` before any zeroing:
`w.data.uniform_(0, fixed_range)` when `only_positive`, else
`w.data.uniform_(-fixed_range, fixed_range)`. -/
def sdrVal (only_positive : Bool) (fixed_range u : ℚ) : ℚ :=
  if only_positive then uniformVal 0 fixed_range u
  else uniformVal (-fixed_range) fixed_range u

/-- Embedding of `get_sparse_tensor(num_nonzeros, input_size, output_size,
only_positive, fixed_range)` (scalar_sdrs.py lines 60-94).

`us i j` is the raw uniform draw for entry `(i, j)`; `perms i` is the
`np.random.permutation(input_size)` drawn for row `i`.  When
`num_nonzeros < input_size` the first `input_size - num_nonzeros` entries
of that permutation are zeroed out (the numpy fancy-index assignment
`w.data[zero_wts] = 0.0` sets all the listed coordinates to `0`);
otherwise the tensor is returned dense.  `output_size` has no effect on
individual entries in this functional representation. -/
def get_sparse_tensor (num_nonzeros input_size output_size : ℕ)
    (only_positive : Bool) (fixed_range : ℚ)
    (us : ℕ → ℕ → ℚ) (perms : ℕ → List ℕ) : ℕ → ℕ → ℚ :=
  fun i j =>
    if num_nonzeros < input_size then
      if j ∈ (perms i).take (input_size - num_nonzeros) then 0
      else sdrVal only_positive fixed_range (us i j)
    else sdrVal only_positive fixed_range (us i j)

/-- `w[0].nonzero()`: the (sorted) list of column indices of the non-zero
entries of a row of length `n`. -/
def nzIndices (n : ℕ) (row : ℕ → ℚ) : List ℕ :=
  (List.range n).filter (fun j => decide (row j ≠ 0))

/-- Number of non-zero entries among the first `n` entries of a row. -/
def nnzRow (n : ℕ) (row : ℕ → ℚ) : ℕ := (nzIndices n row).length

/-- Python 3's builtin `round`: round to nearest, halves to even. -/
def pyRound (q : ℚ) : ℤ :=
  let f := ⌊q⌋
  let r := q - f
  if r < 1 / 2 then f
  else if 1 / 2 < r then f + 1
  else if Even f then f else f + 1

/-- `int(round(noise_pct * kw))` from `get_permuted_tensors`
(scalar_sdrs.py line 106). -/
def numberToZero (noise_pct : ℚ) (kw : ℕ) : ℕ :=
  (pyRound (noise_pct * kw)).toNat

/-- The inner loop `for j in indices: w2[i, nz[j]] = 0` of
`get_permuted_tensors` acting on one variant row.  Looking up `nz[j]`
out of range raises `IndexError`. -/
def zeroVariant (nz : List ℕ) : List ℕ → (ℕ → ℚ) → Except String (ℕ → ℚ)
  | [], row => .ok row
  | j :: js, row =>
    match nz.get? j with
    | some p => zeroVariant nz js (Function.update row p 0)
    | none => .error "IndexError"

/-- The outer loop `for i in range(m2)` of `get_permuted_tensors`,
building the variant rows in order `i = 0, 1, …, m2 - 1`.  `perms i` is
the `np.random.permutation(kw)` drawn in iteration `i`. -/
def buildVariants (row : ℕ → ℚ) (nz : List ℕ) (ntz : ℕ)
    (perms : ℕ → List ℕ) : ℕ → Except String (List (ℕ → ℚ))
  | 0 => .ok []
  | m + 1 =>
    match buildVariants row nz ntz perms m with
    | .error e => .error e
    | .ok vs =>
      match zeroVariant nz ((perms m).take ntz) row with
      | .error e => .error e
      | .ok v => .ok (vs ++ [v])

/-- Embedding of `get_permuted_tensors(w, kw, n, m2, noise_pct)`
(scalar_sdrs.py lines 97-111).  The source receives the `1 × n` tensor
`w` and works with its single row `w[0]`; here `row` is that row.
`w2 = w.repeat(m2, 1)` copies the row `m2` times, so every variant starts
as a copy of `row`. -/
def get_permuted_tensors (row : ℕ → ℚ) (kw n m2 : ℕ) (noise_pct : ℚ)
    (perms : ℕ → List ℕ) : Except String (List (ℕ → ℚ)) :=
  let nz := nzIndices n row
  let ntz := numberToZero noise_pct kw
  buildVariants row nz ntz perms m2

/-- Dot product of two rows of length `n`. -/
def dotRow (n : ℕ) (v w : ℕ → ℚ) : ℚ := ∑ j ∈ Finset.range n, v j * w j

/-- Embedding of `get_theta(k, n_trials)` (scalar_sdrs.py lines 124-144):
`w1 = get_sparse_tensor(k, k, n_trials, fixed_range=1.0/k)` (dense, since
`k < k` fails), `the_dots[i] = w1[i].dot(w1[i])`, and the returned pair is
`(the_dots.mean() / 2.0, the_dots)`. -/
def get_theta (k n_trials : ℕ) (us : ℕ → ℕ → ℚ) (perms : ℕ → List ℕ) :
    ℚ × (ℕ → ℚ) :=
  let w1 := get_sparse_tensor k k n_trials false (1 / (k : ℚ)) us perms
  let the_dots := fun i => dotRow k (w1 i) (w1 i)
  let dot_mean := (∑ i ∈ Finset.range n_trials, the_dots i) / (n_trials : ℚ)
  (dot_mean / 2, the_dots)

/-- The default trial count of `get_theta`. -/
def getThetaDefaultTrials : ℕ := 100000

/-- `((dot >= theta).sum()).item()` for the `m2 × m1` matrix
`dot = input_vectors.matmul(weights.t())`: the number of (input row,
weight row) pairs whose dot product reaches `theta`. -/
def matchCount (n m1 m2 : ℕ) (theta : ℚ)
    (weights input_vectors : ℕ → ℕ → ℚ) : ℕ :=
  ((Finset.range m2 ×ˢ Finset.range m1).filter
    (fun pr => theta ≤ dotRow n (input_vectors pr.1) (weights pr.2))).card

/-- Embedding of `return_matches(kw, kv, n, theta, input_scaling)`
(scalar_sdrs.py lines 147-170). -/
def return_matches (kw kv n : ℕ) (theta input_scaling : ℚ)
    (uw : ℕ → ℕ → ℚ) (pw : ℕ → List ℕ)
    (ui : ℕ → ℕ → ℚ) (pin : ℕ → List ℕ) : ℚ × ℕ × ℕ :=
  let m1 := 4
  let m2 := 1000
  let weights := get_sparse_tensor kw n m1 false (1 / (kw : ℚ)) uw pw
  let input_vectors :=
    get_sparse_tensor kv n m2 true (2 * input_scaling / (kw : ℚ)) ui pin
  let num_matches := matchCount n m1 m2 theta weights input_vectors
  ((num_matches : ℚ) / ((m1 * m2 : ℕ) : ℚ), num_matches, m1 * m2)

/-- Embedding of `return_false_negatives(kw, noise_pct, n, theta)`
(scalar_sdrs.py lines 173-195).  `uw`/`pw` are the draws behind the
`1 × n` weight tensor `w`; `vperms i` is the permutation drawn for
variant `i` inside `get_permuted_tensors`. -/
def return_false_negatives (kw : ℕ) (noise_pct : ℚ) (n : ℕ) (theta : ℚ)
    (uw : ℕ → ℕ → ℚ) (pw : ℕ → List ℕ) (vperms : ℕ → List ℕ) :
    Except String (ℚ × ℕ × ℕ) :=
  let w := get_sparse_tensor kw n 1 false (1 / (kw : ℚ)) uw pw
  let m2 := 10
  match get_permuted_tensors (w 0) kw n m2 noise_pct vperms with
  | .error e => .error e
  | .ok input_vectors =>
    let num_matches :=
      (input_vectors.filter (fun v => decide (theta ≤ dotRow n v (w 0)))).length
    .ok ((num_matches : ℚ) / (m2 : ℚ), num_matches, m2)

/-- Python-dict lookup `d[key]` restricted to the dynamically added keys of
a settings record (`None` models a `KeyError`). -/
def dget (d : List (String × ℚ)) (key : String) : Option ℚ :=
  (d.find? (fun p => p.1 == key)).map (fun p => p.2)

/-- Python-dict update `d.update({key: v})`. -/
def dset (d : List (String × ℚ)) (key : String) (v : ℚ) :
    List (String × ℚ) :=
  (key, v) :: d.filter (fun p => !(p.1 == key))

/-- The mutable settings dictionary consumed by `compute_false_negatives`
(scalar_sdrs.py lines 198-229).  The keys written by the sweep builder are
typed fields; keys added later by `args.update` live in `extra`. -/
structure FNArgs where
  kw : ℕ
  n : ℕ
  noise_pct : ℚ
  n_trials : ℕ
  error_index : ℕ
  extra : List (String × ℚ)
deriving Repr

/-- All random draws consumed by one run of `compute_false_negatives`:
draws for the internal `get_theta(kw)` call (which uses the default
100000 trials) and, for each trial `t`, the draws behind
`return_false_negatives`. -/
structure FNRand where
  thetaU : ℕ → ℕ → ℚ
  thetaP : ℕ → List ℕ
  trialU : ℕ → ℕ → ℕ → ℚ
  trialP : ℕ → ℕ → List ℕ
  trialPerms : ℕ → ℕ → List ℕ

/-- Total projections of a trial result, used to state the pooled sums:
the `num` and `total` components of an `.ok` result (`0` on `.error`). -/
def fnNumOf (x : Except String (ℚ × ℕ × ℕ)) : ℕ :=
  match x with
  | .ok r => r.2.1
  | .error _ => 0

/-- See `fnNumOf`. -/
def fnTotOf (x : Except String (ℚ × ℕ × ℕ)) : ℕ :=
  match x with
  | .ok r => r.2.2
  | .error _ => 0

/-- The accumulation loop of `compute_false_negatives` (lines 206-211):
`num_matches += num; total_comparisons += total` over `n_trials`
repetitions of `return_false_negatives`, propagating any exception. -/
def fn_loop (kw n : ℕ) (noise_pct theta : ℚ) (R : FNRand) :
    ℕ → Except String (ℕ × ℕ)
  | 0 => .ok (0, 0)
  | t + 1 =>
    match fn_loop kw n noise_pct theta R t with
    | .error e => .error e
    | .ok acc =>
      match return_false_negatives kw noise_pct n theta
          (R.trialU t) (R.trialP t) (R.trialPerms t) with
      | .error e => .error e
      | .ok r => .ok (acc.1 + r.2.1, acc.2 + r.2.2)

/-- Embedding of `compute_false_negatives(args)` (scalar_sdrs.py lines
198-229).  `pct_false_negatives = 1.0 - float(num_matches) /
total_comparisons` raises `ZeroDivisionError` when `total_comparisons`
is `0`; on success the result is stored into the record under the key
`"pctFalse"` (line 227). -/
def compute_false_negatives (args : FNArgs) (R : FNRand) :
    Except String FNArgs :=
  let theta := (get_theta args.kw getThetaDefaultTrials R.thetaU R.thetaP).1
  match fn_loop args.kw args.n args.noise_pct theta R args.n_trials with
  | .error e => .error e
  | .ok acc =>
    if acc.2 = 0 then .error "ZeroDivisionError"
    else
      .ok { args with
            extra := dset args.extra "pctFalse" (1 - (acc.1 : ℚ) / (acc.2 : ℚ)) }

/-- The argument list built by `compute_false_negatives_parallel` (lines
242-252): one record per noise level, carrying its own `error_index`. -/
def fn_sweep_args (listof_noise : List ℚ) (kw n_trials n : ℕ) :
    List FNArgs :=
  (List.range listof_noise.length).map (fun ni =>
    { kw := kw, n := n, noise_pct := listof_noise.getD ni 0,
      n_trials := n_trials, error_index := ni, extra := [] })

/-- Running the experiments over the argument list.  Both the pool branch
(`pool.map_async(..., chunksize=1)` followed by `rs.get()`, which yields
results in submission order) and the sequential branch (lines 271-274)
evaluate `compute_false_negatives` on each record in list order; a worker
exception propagates when results are collected.  `i` is the position of
the head of the remaining list, used to address each experiment's own
random draws `RR i`. -/
def runExperiments (RR : ℕ → FNRand) : ℕ → List FNArgs →
    Except String (List FNArgs)
  | _, [] => .ok []
  | i, a :: rest =>
    match compute_false_negatives a (RR i) with
    | .error e => .error e
    | .ok r =>
      match runExperiments RR (i + 1) rest with
      | .error e => .error e
      | .ok rs => .ok (r :: rs)

/-- One step of the reduction loop `for r in result:
`errors[r["error_index"]] = r["pct_false"]` (line 279); a missing key
raises `KeyError`. -/
def scatterStep (eErrs : Except String (ℕ → ℚ)) (r : FNArgs) :
    Except String (ℕ → ℚ) :=
  match eErrs with
  | .error e => .error e
  | .ok errs =>
    match dget r.extra "pct_false" with
    | some v => .ok (Function.update errs r.error_index v)
    | none => .error "KeyError"

/-- The reduction of collected results into the output array
`errors = np.zeros(len(listof_noise))` (lines 277-279); the array is the
function `ℕ → ℚ`, initially all zero. -/
def scatterResults (result : List FNArgs) : Except String (ℕ → ℚ) :=
  result.foldl scatterStep (.ok (fun _ => 0))

/-- Embedding of `compute_false_negatives_parallel(listof_noise, kw,
num_workers, n_trials, n)` (scalar_sdrs.py lines 232-285), up to the
numeric result array (the final plotting call is out of scope).  The two
branches of the `num_workers` test run the same experiments in the same
order (see `runExperiments`). -/
def compute_false_negatives_parallel (listof_noise : List ℚ)
    (kw num_workers n_trials n : ℕ) (RR : ℕ → FNRand) :
    Except String (ℕ → ℚ) :=
  let args := fn_sweep_args listof_noise kw n_trials n
  let resultE :=
    if num_workers > 1 then runExperiments RR 0 args
    else runExperiments RR 0 args
  match resultE with
  | .error e => .error e
  | .ok result => scatterResults result

/-- The settings dictionary consumed by `compute_match_probability`
(scalar_sdrs.py lines 288-341); `k` is an integer because the sentinel
`-1` means "use `n/2`". -/
structure MPArgs where
  k : ℤ
  kw : ℕ
  n : ℕ
  theta : ℚ
  n_trials : ℕ
  input_scaling : ℚ
  extra : List (String × ℚ)
deriving Repr

/-- All random draws consumed by the trials of one
`compute_match_probability` run. -/
structure MPRand where
  trialUW : ℕ → ℕ → ℕ → ℚ
  trialPW : ℕ → ℕ → List ℕ
  trialUI : ℕ → ℕ → ℕ → ℚ
  trialPI : ℕ → ℕ → List ℕ

/-- `kv = args["k"]; if kv == -1: kv = int(round(n / 2.0))`
(lines 309, 314-315). -/
def resolve_kv (k : ℤ) (n : ℕ) : ℕ :=
  if k = -1 then (pyRound ((n : ℚ) / 2)).toNat else k.toNat

/-- The accumulation loop of `compute_match_probability` (lines 317-322). -/
def mp_loop (kw kv n : ℕ) (theta input_scaling : ℚ) (R : MPRand) :
    ℕ → ℕ × ℕ
  | 0 => (0, 0)
  | t + 1 =>
    let acc := mp_loop kw kv n theta input_scaling R t
    let r := return_matches kw kv n theta input_scaling
      (R.trialUW t) (R.trialPW t) (R.trialUI t) (R.trialPI t)
    (acc.1 + r.2.1, acc.2 + r.2.2)

/-- Embedding of `compute_match_probability(args)` (scalar_sdrs.py lines
288-341).  `pct_matches = float(num_matches) / total_comparisons` raises
`ZeroDivisionError` when `total_comparisons` is `0`; on success the
result is stored under the key `"pct_matches"` (line 339). -/
def compute_match_probability (args : MPArgs) (R : MPRand) :
    Except String MPArgs :=
  let kv := resolve_kv args.k args.n
  let acc := mp_loop args.kw kv args.n args.theta args.input_scaling R
    args.n_trials
  if acc.2 = 0 then .error "ZeroDivisionError"
  else
    .ok { args with
          extra := dset args.extra "pct_matches" ((acc.1 : ℚ) / (acc.2 : ℚ)) }

/-!
## Memory-level model of `get_permuted_tensors`

To settle the frame property ("the source row itself is never mutated")
the function is also embedded at the level of a flat numeric store
`ℕ → ℚ`.  The source row `w` occupies addresses `wOff + j`, `j < n`.
`w2 = w.repeat(m2, 1)` allocates a fresh `m2 × n` buffer (torch `repeat`
copies, it does not alias) which the model places at the disjoint offset
`wOff + n`; the statement `w2[i, nz[j]] = 0` writes to that buffer only.
-/

/-- `w.repeat(m2, 1)`: fresh buffer at `dstOff` holding `m2` copies of the
`n` entries starting at `srcOff`. -/
def heapRepeat (h : ℕ → ℚ) (srcOff n dstOff m2 : ℕ) : ℕ → ℚ :=
  fun a =>
    if dstOff ≤ a ∧ a < dstOff + m2 * n then h (srcOff + (a - dstOff) % n)
    else h a

/-- The inner write loop on the store: `for j in indices:
`w2[i, nz[j]] = 0`. -/
def heapZeroVariant (w2Off n i : ℕ) (nz : List ℕ) :
    List ℕ → (ℕ → ℚ) → Except String (ℕ → ℚ)
  | [], h => .ok h
  | j :: js, h =>
    match nz.get? j with
    | some p =>
      heapZeroVariant w2Off n i nz js (Function.update h (w2Off + i * n + p) 0)
    | none => .error "IndexError"

/-- The outer loop over variants `i = 0, …, m2 - 1` on the store. -/
def heapVariantsLoop (w2Off n : ℕ) (nz : List ℕ) (ntz : ℕ)
    (perms : ℕ → List ℕ) : ℕ → (ℕ → ℚ) → Except String (ℕ → ℚ)
  | 0, h => .ok h
  | i + 1, h =>
    match heapVariantsLoop w2Off n nz ntz perms i h with
    | .error e => .error e
    | .ok h' => heapZeroVariant w2Off n i nz ((perms i).take ntz) h'

/-- Memory-level embedding of `get_permuted_tensors(w, kw, n, m2,
noise_pct)`: repeat-copy the source row, locate its non-zero columns,
then run the zeroing loops; the final store is returned. -/
def get_permuted_tensors_heap (wOff n kw m2 : ℕ) (noise_pct : ℚ)
    (perms : ℕ → List ℕ) (h : ℕ → ℚ) : Except String (ℕ → ℚ) :=
  let w2Off := wOff + n
  let h1 := heapRepeat h wOff n w2Off m2
  let nz := (List.range n).filter (fun j => decide (h1 (wOff + j) ≠ 0))
  let ntz := numberToZero noise_pct kw
  heapVariantsLoop w2Off n nz ntz perms m2 h1

/-! ## Basic facts about generated values -/

lemma sdrVal_false_eq (r u : ℚ) : sdrVal false r u = r * (2 * u - 1) := by
  simp only [sdrVal, uniformVal, Bool.false_eq_true, if_false]
  ring

lemma sdrVal_true_eq (r u : ℚ) : sdrVal true r u = u * r := by
  simp only [sdrVal, uniformVal, if_true]
  ring

lemma sdrVal_false_ne_zero {r u : ℚ} (hr : r ≠ 0) (hu : u ≠ 1 / 2) :
    sdrVal false r u ≠ 0 := by
  rw [sdrVal_false_eq]
  intro h
  rcases mul_eq_zero.mp h with h | h
  · exact hr h
  · exact hu (by linarith)

lemma sdrVal_false_bounds {r u : ℚ} (hr : 0 ≤ r) (h0 : 0 ≤ u) (h1 : u ≤ 1) :
    -r ≤ sdrVal false r u ∧ sdrVal false r u ≤ r := by
  rw [sdrVal_false_eq]
  constructor <;> nlinarith

lemma sdrVal_true_bounds {r u : ℚ} (hr : 0 ≤ r) (h0 : 0 ≤ u) (h1 : u ≤ 1) :
    0 ≤ sdrVal true r u ∧ sdrVal true r u ≤ r := by
  rw [sdrVal_true_eq]
  exact ⟨mul_nonneg h0 hr, by nlinarith⟩

lemma get_sparse_tensor_apply (k n m : ℕ) (pos : Bool) (r : ℚ)
    (us : ℕ → ℕ → ℚ) (perms : ℕ → List ℕ) (i j : ℕ) :
    get_sparse_tensor k n m pos r us perms i j =
      if k < n then
        if j ∈ (perms i).take (n - k) then 0 else sdrVal pos r (us i j)
      else sdrVal pos r (us i j) := rfl

/-- When `num_nonzeros ≥ input_size` no zeroing happens: the tensor is the
dense uniform fill, whatever the permutations are. -/
lemma get_sparse_tensor_dense {k n : ℕ} (m : ℕ) (pos : Bool) (r : ℚ)
    (us : ℕ → ℕ → ℚ) (perms : ℕ → List ℕ) (h : n ≤ k) :
    get_sparse_tensor k n m pos r us perms =
      fun i j => sdrVal pos r (us i j) := by
  funext i j
  rw [get_sparse_tensor_apply, if_neg (by omega)]

/-! ## Counting non-zero entries of a generated row -/

/-- In a generated row, an entry is zero exactly when the zeroing step hit
its column (provided no raw draw lands exactly on the value `0`). -/
lemma get_sparse_tensor_eq_zero_iff (k n m : ℕ) (pos : Bool) (r : ℚ)
    (us : ℕ → ℕ → ℚ) (perms : ℕ → List ℕ) (i j : ℕ)
    (hkn : k < n) (hv : sdrVal pos r (us i j) ≠ 0) :
    get_sparse_tensor k n m pos r us perms i j = 0 ↔
      j ∈ (perms i).take (n - k) := by
  rw [get_sparse_tensor_apply, if_pos hkn]
  by_cases hj : j ∈ (perms i).take (n - k)
  · simp [hj]
  · simp [hj, hv]

/-- Each generated row has exactly `min k n` non-zero entries (among its
`n` meaningful columns), provided the per-row index list is a permutation
of `range n` and no raw draw lands exactly on the value `0`. -/
lemma get_sparse_tensor_nnz (k n m : ℕ) (pos : Bool) (r : ℚ)
    (us : ℕ → ℕ → ℚ) (perms : ℕ → List ℕ) (i : ℕ)
    (hp : List.Perm (perms i) (List.range n))
    (hv : ∀ j, sdrVal pos r (us i j) ≠ 0) :
    nnzRow n (get_sparse_tensor k n m pos r us perms i) = min k n := by
  unfold nnzRow nzIndices
  by_cases hkn : k < n
  · set tk := (perms i).take (n - k) with htk
    have hpnd : (perms i).Nodup := hp.nodup_iff.mpr (List.nodup_range n)
    have htknd : tk.Nodup := (List.take_sublist _ _).nodup hpnd
    have htkmem : ∀ x ∈ tk, x < n := by
      intro x hx
      have : x ∈ perms i := List.mem_of_mem_take hx
      simpa using hp.subset this
    have htklen : tk.length = n - k := by
      rw [htk, List.length_take, hp.length_eq, List.length_range]
      omega
    have hcongr :
        (List.range n).filter
            (fun j => decide (get_sparse_tensor k n m pos r us perms i j ≠ 0)) =
          (List.range n).filter (fun j => !decide (j ∈ tk)) := by
      apply List.filter_congr
      intro x _
      by_cases hx : x ∈ tk
      · have : get_sparse_tensor k n m pos r us perms i x = 0 :=
          (get_sparse_tensor_eq_zero_iff k n m pos r us perms i x hkn
            (hv x)).mpr hx
        simp [this, hx]
      · have : get_sparse_tensor k n m pos r us perms i x ≠ 0 := by
          intro h0
          exact hx ((get_sparse_tensor_eq_zero_iff k n m pos r us perms i x
            hkn (hv x)).mp h0)
        simp [this, hx]
    rw [hcongr]
    have hperm : List.Perm ((List.range n).filter (fun j => decide (j ∈ tk))) tk := by
      refine (List.perm_ext_iff_of_nodup
        ((List.nodup_range n).filter _) htknd).mpr ?_
      intro x
      simp only [List.mem_filter, List.mem_range, decide_eq_true_eq]
      exact ⟨fun h => h.2, fun h => ⟨htkmem x h, h⟩⟩
    have hmlen : ((List.range n).filter (fun j => decide (j ∈ tk))).length
        = n - k := by rw [hperm.length_eq, htklen]
    have hsplit : n = ((List.range n).filter (fun j => decide (j ∈ tk))).length
        + ((List.range n).filter (fun j => !decide (j ∈ tk))).length := by
      have h2 := List.length_eq_countP_add_countP
        (fun j => decide (j ∈ tk)) (List.range n)
      rw [List.countP_eq_length_filter, List.countP_eq_length_filter,
        List.length_range] at h2
      simpa using h2
    rw [hmlen] at hsplit
    omega
  · have hcongr :
        (List.range n).filter
            (fun j => decide (get_sparse_tensor k n m pos r us perms i j ≠ 0)) =
          (List.range n).filter (fun _ => true) := by
      apply List.filter_congr
      intro x _
      have : get_sparse_tensor k n m pos r us perms i x =
          sdrVal pos r (us i x) := by
        rw [get_sparse_tensor_apply, if_neg hkn]
      simp [this, hv x]
    rw [hcongr, List.filter_true, List.length_range]
    omega

/-! ## The noisy-variant builder -/

/-- When every index drawn for one variant is in range for the non-zero
position list, the inner loop succeeds, and the resulting variant equals
the source row with the selected positions set to `0` (the writes all
write `0`, so their order is irrelevant). -/
lemma zeroVariant_ok (nz : List ℕ) (js : List ℕ) :
    ∀ row : ℕ → ℚ, (∀ x ∈ js, x < nz.length) →
    zeroVariant nz js row =
      .ok (fun p => if p ∈ js.filterMap nz.get? then 0 else row p) := by
  induction js with
  | nil =>
    intro row _
    simp only [zeroVariant, List.filterMap_nil, List.not_mem_nil, if_false]
  | cons j js ih =>
    intro row hb
    have hj : j < nz.length := hb j (by simp)
    have hp0 : nz.get? j = some (nz.get ⟨j, hj⟩) := List.get?_eq_get hj
    simp only [zeroVariant, hp0]
    rw [ih _ (fun x hx => hb x (by simp [hx]))]
    congr 1
    funext p
    rw [List.filterMap_cons_some hp0]
    by_cases hmem : p ∈ js.filterMap nz.get?
    · simp [hmem]
    · by_cases hpp : p = nz.get ⟨j, hj⟩
      · simp [hmem, hpp, Function.update_apply]
      · simp [hmem, hpp, Function.update_apply]

/-- `filterMap nz.get?` keeps the length of an all-in-range index list. -/
lemma filterMap_get_length (nz : List ℕ) (js : List ℕ)
    (hb : ∀ x ∈ js, x < nz.length) :
    (js.filterMap nz.get?).length = js.length := by
  induction js with
  | nil => simp
  | cons j js ih =>
    have hj : j < nz.length := hb j (by simp)
    have hp0 : nz.get? j = some (nz.get ⟨j, hj⟩) := List.get?_eq_get hj
    rw [List.filterMap_cons_some hp0]
    simp [ih (fun x hx => hb x (by simp [hx]))]

/-- Distinct in-range indices pick distinct elements of a duplicate-free
list. -/
lemma filterMap_get_nodup (nz : List ℕ) (hnz : nz.Nodup) (js : List ℕ)
    (hjs : js.Nodup) (hb : ∀ x ∈ js, x < nz.length) :
    (js.filterMap nz.get?).Nodup := by
  induction js with
  | nil => simp
  | cons j js ih =>
    obtain ⟨hjnm, hjs'⟩ := List.nodup_cons.mp hjs
    have hj : j < nz.length := hb j (by simp)
    have hp0 : nz.get? j = some (nz.get ⟨j, hj⟩) := List.get?_eq_get hj
    rw [List.filterMap_cons_some hp0]
    refine List.nodup_cons.mpr
      ⟨?_, ih hjs' (fun x hx => hb x (by simp [hx]))⟩
    intro hmem
    obtain ⟨x, hxmem, hx⟩ := List.mem_filterMap.mp hmem
    have hxlt : x < nz.length := hb x (by simp [hxmem])
    have hjx : j = x := by
      apply List.getElem?_inj hj hnz
      rw [List.get?_eq_getElem?] at hp0 hx
      rw [hp0, hx]
    exact hjnm (hjx ▸ hxmem)

/-- Every picked position is a member of the non-zero position list. -/
lemma filterMap_get_subset (nz : List ℕ) (js : List ℕ) :
    ∀ p ∈ js.filterMap nz.get?, p ∈ nz := by
  intro p hp
  obtain ⟨x, _, hx⟩ := List.mem_filterMap.mp hp
  exact List.get?_mem hx

/-- The outer loop succeeds when the drawn indices are in range, and
builds one characterized variant per iteration, in order. -/
lemma buildVariants_ok (row : ℕ → ℚ) (nz : List ℕ) (ntz : ℕ)
    (perms : ℕ → List ℕ)
    (hb : ∀ i, ∀ x ∈ (perms i).take ntz, x < nz.length) (m : ℕ) :
    ∃ vs, buildVariants row nz ntz perms m = .ok vs ∧ vs.length = m ∧
      ∀ i, i < m → vs.get? i = some (fun p =>
        if p ∈ ((perms i).take ntz).filterMap nz.get? then 0 else row p) := by
  induction m with
  | zero => exact ⟨[], rfl, rfl, fun i hi => absurd hi (by omega)⟩
  | succ m ih =>
    obtain ⟨vs, hvs, hlen, hget⟩ := ih
    refine ⟨vs ++ [fun p =>
      if p ∈ ((perms m).take ntz).filterMap nz.get? then 0 else row p],
      ?_, ?_, ?_⟩
    · rw [buildVariants, hvs, zeroVariant_ok nz _ row (hb m)]
    · simp [hlen]
    · intro i hi
      by_cases him : i < m
      · rw [List.get?_append (by omega)]
        exact hget i him
      · have hieq : i = m := by omega
        subst hieq
        rw [← hlen]
        exact List.get?_concat_length _ _

/-- Success characterization of `get_permuted_tensors`: if the source row
has at least `kw` non-zero positions and each variant's index list is a
permutation of `range kw`, the call returns `m2` variant rows. -/
lemma get_permuted_tensors_ok (row : ℕ → ℚ) (kw n m2 : ℕ)
    (noise_pct : ℚ) (perms : ℕ → List ℕ)
    (hnz : kw ≤ (nzIndices n row).length)
    (hperm : ∀ i, List.Perm (perms i) (List.range kw)) :
    ∃ vs, get_permuted_tensors row kw n m2 noise_pct perms = .ok vs ∧
      vs.length = m2 ∧
      ∀ i, i < m2 → vs.get? i = some (fun p =>
        if p ∈ ((perms i).take (numberToZero noise_pct kw)).filterMap
            (nzIndices n row).get? then 0 else row p) := by
  have hb : ∀ i, ∀ x ∈ (perms i).take (numberToZero noise_pct kw),
      x < (nzIndices n row).length := by
    intro i x hx
    have hxp : x ∈ perms i := List.mem_of_mem_take hx
    have hxk : x < kw := by simpa using (hperm i).subset hxp
    omega
  exact buildVariants_ok row _ _ perms hb m2

/-- With a valid configuration (`1 ≤ kw ≤ n`), generic raw draws (none
landing exactly on the zero of the symmetric range) and genuine
permutations, a false-negative trial succeeds and returns
`(count / 10, count, 10)` where `count` counts the variants whose dot
product with the original row reaches `theta`. -/
lemma return_false_negatives_ok (kw n : ℕ) (noise_pct theta : ℚ)
    (uw : ℕ → ℕ → ℚ) (pw : ℕ → List ℕ) (vperms : ℕ → List ℕ)
    (hkw : 1 ≤ kw) (hkn : kw ≤ n)
    (hu : ∀ j, uw 0 j ≠ 1 / 2)
    (hp : List.Perm (pw 0) (List.range n))
    (hvp : ∀ i, List.Perm (vperms i) (List.range kw)) :
    ∃ vs, get_permuted_tensors
        (get_sparse_tensor kw n 1 false (1 / (kw : ℚ)) uw pw 0) kw n 10
        noise_pct vperms = .ok vs ∧
      vs.length = 10 ∧
      return_false_negatives kw noise_pct n theta uw pw vperms =
        .ok ((((vs.filter (fun v => decide (theta ≤ dotRow n v
            (get_sparse_tensor kw n 1 false (1 / (kw : ℚ)) uw pw 0)))).length :
              ℕ) : ℚ) / (10 : ℚ),
          (vs.filter (fun v => decide (theta ≤ dotRow n v
            (get_sparse_tensor kw n 1 false (1 / (kw : ℚ)) uw pw 0)))).length,
          10) := by
  have hr : (1 : ℚ) / (kw : ℚ) ≠ 0 :=
    one_div_ne_zero (Nat.cast_ne_zero.mpr (by omega))
  have hv : ∀ j, sdrVal false (1 / (kw : ℚ)) (uw 0 j) ≠ 0 :=
    fun j => sdrVal_false_ne_zero hr (hu j)
  have hnnz : nnzRow n (get_sparse_tensor kw n 1 false (1 / (kw : ℚ)) uw pw 0)
      = kw := by
    rw [get_sparse_tensor_nnz kw n 1 false _ uw pw 0 hp hv]
    omega
  have hnz : kw ≤ (nzIndices n
      (get_sparse_tensor kw n 1 false (1 / (kw : ℚ)) uw pw 0)).length := by
    unfold nnzRow at hnnz
    omega
  obtain ⟨vs, hgpt, hlen, -⟩ := get_permuted_tensors_ok
    (get_sparse_tensor kw n 1 false (1 / (kw : ℚ)) uw pw 0) kw n 10
    noise_pct vperms hnz hvp
  refine ⟨vs, hgpt, hlen, ?_⟩
  show (match get_permuted_tensors
      (get_sparse_tensor kw n 1 false (1 / (kw : ℚ)) uw pw 0) kw n 10
      noise_pct vperms with
    | Except.error e => Except.error e
    | Except.ok input_vectors =>
      Except.ok ((((input_vectors.filter (fun v => decide (theta ≤ dotRow n v
          (get_sparse_tensor kw n 1 false (1 / (kw : ℚ)) uw pw 0)))).length :
            ℕ) : ℚ) / ((10 : ℕ) : ℚ),
        (input_vectors.filter (fun v => decide (theta ≤ dotRow n v
          (get_sparse_tensor kw n 1 false (1 / (kw : ℚ)) uw pw 0)))).length,
        10)) = _
  rw [hgpt]
  norm_num

/-! ## Trial and aggregation lemmas -/

lemma matchCount_le (n m1 m2 : ℕ) (theta : ℚ)
    (weights input_vectors : ℕ → ℕ → ℚ) :
    matchCount n m1 m2 theta weights input_vectors ≤ m2 * m1 := by
  unfold matchCount
  calc ((Finset.range m2 ×ˢ Finset.range m1).filter _).card
      ≤ (Finset.range m2 ×ˢ Finset.range m1).card :=
        Finset.card_filter_le _ _
    _ = m2 * m1 := by
        rw [Finset.card_product, Finset.card_range, Finset.card_range]

lemma return_matches_eq (kw kv n : ℕ) (theta s : ℚ)
    (uw : ℕ → ℕ → ℚ) (pw : ℕ → List ℕ)
    (ui : ℕ → ℕ → ℚ) (pin : ℕ → List ℕ) :
    return_matches kw kv n theta s uw pw ui pin =
      ((matchCount n 4 1000 theta
          (get_sparse_tensor kw n 4 false (1 / (kw : ℚ)) uw pw)
          (get_sparse_tensor kv n 1000 true (2 * s / (kw : ℚ)) ui pin) : ℚ)
          / (4000 : ℚ),
        matchCount n 4 1000 theta
          (get_sparse_tensor kw n 4 false (1 / (kw : ℚ)) uw pw)
          (get_sparse_tensor kv n 1000 true (2 * s / (kw : ℚ)) ui pin),
        4000) := by
  simp only [return_matches]
  norm_num

lemma mp_loop_eq (kw kv n : ℕ) (theta s : ℚ) (R : MPRand) (T : ℕ) :
    mp_loop kw kv n theta s R T =
      (∑ t ∈ Finset.range T, (return_matches kw kv n theta s
          (R.trialUW t) (R.trialPW t) (R.trialUI t) (R.trialPI t)).2.1,
       ∑ t ∈ Finset.range T, (return_matches kw kv n theta s
          (R.trialUW t) (R.trialPW t) (R.trialUI t) (R.trialPI t)).2.2) := by
  induction T with
  | zero => simp [mp_loop]
  | succ T ih =>
    rw [mp_loop, ih]
    simp [Finset.sum_range_succ]

lemma fn_loop_eq (kw n : ℕ) (noise theta : ℚ) (R : FNRand) (T : ℕ)
    (hok : ∀ t, t < T → ∃ r, return_false_negatives kw noise n theta
        (R.trialU t) (R.trialP t) (R.trialPerms t) = .ok r) :
    fn_loop kw n noise theta R T = .ok
      (∑ t ∈ Finset.range T, fnNumOf (return_false_negatives kw noise n theta
          (R.trialU t) (R.trialP t) (R.trialPerms t)),
       ∑ t ∈ Finset.range T, fnTotOf (return_false_negatives kw noise n theta
          (R.trialU t) (R.trialP t) (R.trialPerms t))) := by
  induction T with
  | zero => simp [fn_loop]
  | succ T ih =>
    obtain ⟨r, hr⟩ := hok T (by omega)
    rw [fn_loop, ih (fun t ht => hok t (by omega)), hr]
    simp [Finset.sum_range_succ, hr, fnNumOf, fnTotOf]

/-! ## Dictionary lemmas -/

lemma dget_dset_same (d : List (String × ℚ)) (key : String) (v : ℚ) :
    dget (dset d key v) key = some v := by
  simp [dget, dset, List.find?]

lemma dget_pctFalse_mismatch (d : List (String × ℚ)) (v : ℚ)
    (hd : d = []) :
    dget (dset d "pctFalse" v) "pct_false" = none := by
  subst hd
  have hb : (("pctFalse" : String) == "pct_false") = false := by decide
  simp [dget, dset, List.find?, hb]

/-! ## Sweep-driver lemmas -/

lemma compute_false_negatives_ok_extra (a : FNArgs) (R : FNRand)
    (r : FNArgs) (h : compute_false_negatives a R = .ok r) :
    ∃ v, r.extra = dset a.extra "pctFalse" v := by
  simp only [compute_false_negatives] at h
  cases hl : fn_loop a.kw a.n a.noise_pct
      (get_theta a.kw getThetaDefaultTrials R.thetaU R.thetaP).1 R
      a.n_trials with
  | error e => simp only [hl] at h; cases h
  | ok acc =>
    simp only [hl] at h
    by_cases hz : acc.2 = 0
    · rw [if_pos hz] at h; cases h
    · rw [if_neg hz] at h
      refine ⟨1 - (acc.1 : ℚ) / (acc.2 : ℚ), ?_⟩
      injection h with h'
      rw [← h']

lemma runExperiments_cons (RR : ℕ → FNRand) (i : ℕ) (a : FNArgs)
    (rest : List FNArgs) (rs : List FNArgs)
    (h : runExperiments RR i (a :: rest) = .ok rs) :
    ∃ r rs', rs = r :: rs' ∧ compute_false_negatives a (RR i) = .ok r := by
  simp only [runExperiments] at h
  cases hc : compute_false_negatives a (RR i) with
  | error e => simp only [hc] at h; cases h
  | ok r =>
    simp only [hc] at h
    cases hrest : runExperiments RR (i + 1) rest with
    | error e => simp only [hrest] at h; cases h
    | ok rs' =>
      simp only [hrest] at h
      injection h with h'
      exact ⟨r, rs', h'.symm, rfl⟩

lemma scatter_foldl_error (l : List FNArgs) (e : String) :
    l.foldl scatterStep (.error e) = .error e := by
  induction l with
  | nil => rfl
  | cons a l ih => rw [List.foldl_cons]; exact ih

lemma scatterResults_keyerror (r : FNArgs) (rest : List FNArgs)
    (h : dget r.extra "pct_false" = none) :
    scatterResults (r :: rest) = .error "KeyError" := by
  unfold scatterResults
  rw [List.foldl_cons]
  have hstep : scatterStep (.ok (fun _ => 0)) r = .error "KeyError" := by
    unfold scatterStep
    rw [h]
  rw [hstep]
  exact scatter_foldl_error rest _

/-! ## Frame lemmas for the memory-level model -/

lemma heapRepeat_frame (h : ℕ → ℚ) (srcOff n dstOff m2 a : ℕ)
    (ha : a < dstOff) :
    heapRepeat h srcOff n dstOff m2 a = h a := by
  unfold heapRepeat
  rw [if_neg]
  omega

lemma heapZeroVariant_frame (w2Off n i : ℕ) (nz : List ℕ) (js : List ℕ) :
    ∀ (h h' : ℕ → ℚ), heapZeroVariant w2Off n i nz js h = .ok h' →
    ∀ a, a < w2Off → h' a = h a := by
  induction js with
  | nil =>
    intro h h' hok a _
    injection hok with h''
    rw [← h'']
  | cons j js ih =>
    intro h h' hok a ha
    cases hg : nz.get? j with
    | none => simp only [heapZeroVariant, hg] at hok; cases hok
    | some p =>
      simp only [heapZeroVariant, hg] at hok
      have := ih _ _ hok a ha
      rw [this, Function.update_apply, if_neg (by omega)]

lemma heapVariantsLoop_frame (w2Off n : ℕ) (nz : List ℕ) (ntz : ℕ)
    (perms : ℕ → List ℕ) (m : ℕ) :
    ∀ (h h' : ℕ → ℚ), heapVariantsLoop w2Off n nz ntz perms m h = .ok h' →
    ∀ a, a < w2Off → h' a = h a := by
  induction m with
  | zero =>
    intro h h' hok a _
    injection hok with h''
    rw [← h'']
  | succ m ih =>
    intro h h' hok a ha
    cases hl : heapVariantsLoop w2Off n nz ntz perms m h with
    | error e =>
      rw [heapVariantsLoop, hl] at hok
      cases hok
    | ok hm =>
      simp only [heapVariantsLoop, hl] at hok
      rw [heapZeroVariant_frame w2Off n m nz _ _ _ hok a ha]
      exact ih _ _ hl a ha

/-! ## Entry-range helpers -/

lemma get_sparse_tensor_bounds_false (k n m : ℕ) (r : ℚ)
    (us : ℕ → ℕ → ℚ) (perms : ℕ → List ℕ) (hr : 0 ≤ r)
    (hus : ∀ i j, 0 ≤ us i j ∧ us i j ≤ 1) (i j : ℕ) :
    -r ≤ get_sparse_tensor k n m false r us perms i j ∧
      get_sparse_tensor k n m false r us perms i j ≤ r := by
  rw [get_sparse_tensor_apply]
  split_ifs
  · constructor <;> linarith
  · exact sdrVal_false_bounds hr (hus i j).1 (hus i j).2
  · exact sdrVal_false_bounds hr (hus i j).1 (hus i j).2

lemma get_sparse_tensor_bounds_true (k n m : ℕ) (r : ℚ)
    (us : ℕ → ℕ → ℚ) (perms : ℕ → List ℕ) (hr : 0 ≤ r)
    (hus : ∀ i j, 0 ≤ us i j ∧ us i j ≤ 1) (i j : ℕ) :
    0 ≤ get_sparse_tensor k n m true r us perms i j ∧
      get_sparse_tensor k n m true r us perms i j ≤ r := by
  rw [get_sparse_tensor_apply]
  split_ifs
  · exact ⟨le_refl 0, hr⟩
  · exact sdrVal_true_bounds hr (hus i j).1 (hus i j).2
  · exact sdrVal_true_bounds hr (hus i j).1 (hus i j).2

/-! ## The claims -/

/-- Claim C3: for every `k ≥ 0`, `n > 0` and row `i` of the batch, the
sparse-vector generator's row has exactly `min k n` non-zero entries
(assuming the raw uniform draws avoid the measure-zero event of landing
exactly on `0`): when `k < n` an entry is zero exactly on the `n - k`
positions drawn from that row's own random permutation (leaving a random
`k`-subset non-zero); when `k ≥ n` no position is zeroed (dense row); and
`k = 0` yields an all-zero row without raising an error (the embedding is
total on this path). -/
theorem claim_C3_generator_row_sparsity (k n m : ℕ) (pos : Bool) (r : ℚ)
    (us : ℕ → ℕ → ℚ) (perms : ℕ → List ℕ) (i : ℕ)
    (hn : 0 < n)
    (hv : ∀ j, sdrVal pos r (us i j) ≠ 0)
    (hp : List.Perm (perms i) (List.range n)) :
    nnzRow n (get_sparse_tensor k n m pos r us perms i) = min k n ∧
    (k < n → ∀ j, get_sparse_tensor k n m pos r us perms i j = 0 ↔
      j ∈ (perms i).take (n - k)) ∧
    (n ≤ k → ∀ j, get_sparse_tensor k n m pos r us perms i j =
      sdrVal pos r (us i j)) ∧
    (k = 0 → ∀ j, j < n → get_sparse_tensor k n m pos r us perms i j = 0) := by
  refine ⟨get_sparse_tensor_nnz k n m pos r us perms i hp hv, ?_, ?_, ?_⟩
  · intro hkn j
    exact get_sparse_tensor_eq_zero_iff k n m pos r us perms i j hkn (hv j)
  · intro hnk j
    rw [get_sparse_tensor_apply, if_neg (by omega)]
  · intro hk0 j hj
    subst hk0
    rw [get_sparse_tensor_apply, if_pos hn, if_pos]
    rw [Nat.sub_zero,
      List.take_of_length_le (le_of_eq (hp.length_eq.trans (List.length_range n)))]
    exact hp.mem_iff.mpr (List.mem_range.mpr hj)

theorem claim_C3_generator_row_sparsity_witness :
    nnzRow 2 (get_sparse_tensor 1 2 1 false 1 (fun _ _ => 1)
      (fun _ => [0, 1]) 0) = min 1 2 :=
  (claim_C3_generator_row_sparsity 1 2 1 false 1 (fun _ _ => 1)
    (fun _ => [0, 1]) 0 (by norm_num)
    (fun j => by norm_num [sdrVal, uniformVal]) (by decide)).1

/-- Claim C4: for every sparsity `k ≥ 1` and trial count, the threshold
estimator generates `n_trials` weight-like rows of dimensionality `k`
(ambient dimensionality equal to sparsity, hence the zeroing branch is
skipped and the rows are dense uniform fills with range `1/k`, whose
entries lie in `[-1/k, 1/k]` for raw draws in `[0, 1]`), computes each
row's self dot-product, and returns the pair `(theta, dots)` where
`theta` equals the mean of those self dot-products divided by exactly
`2`. -/
theorem claim_C4_theta_is_half_mean_self_dot (k n_trials : ℕ)
    (us : ℕ → ℕ → ℚ) (perms : ℕ → List ℕ)
    (hk : 1 ≤ k)
    (hus : ∀ i j, 0 ≤ us i j ∧ us i j ≤ 1) :
    get_sparse_tensor k k n_trials false (1 / (k : ℚ)) us perms =
      (fun i j => sdrVal false (1 / (k : ℚ)) (us i j)) ∧
    (get_theta k n_trials us perms).2 =
      (fun i => dotRow k (fun j => sdrVal false (1 / (k : ℚ)) (us i j))
        (fun j => sdrVal false (1 / (k : ℚ)) (us i j))) ∧
    (get_theta k n_trials us perms).1 =
      ((∑ i ∈ Finset.range n_trials,
          dotRow k (fun j => sdrVal false (1 / (k : ℚ)) (us i j))
            (fun j => sdrVal false (1 / (k : ℚ)) (us i j))) /
        (n_trials : ℚ)) / 2 ∧
    (∀ i j, -(1 / (k : ℚ)) ≤ sdrVal false (1 / (k : ℚ)) (us i j) ∧
      sdrVal false (1 / (k : ℚ)) (us i j) ≤ 1 / (k : ℚ)) := by
  have hd := get_sparse_tensor_dense n_trials false (1 / (k : ℚ)) us perms
    (le_refl k)
  refine ⟨hd, ?_, ?_, ?_⟩
  · simp only [get_theta, hd]
  · simp only [get_theta, hd]
  · intro i j
    refine sdrVal_false_bounds ?_ (hus i j).1 (hus i j).2
    positivity

theorem claim_C4_theta_is_half_mean_self_dot_witness :
    (get_theta 1 1 (fun _ _ => 1) (fun _ => [0])).1 =
      ((∑ i ∈ Finset.range 1,
          dotRow 1 (fun j => sdrVal false (1 / ((1 : ℕ) : ℚ)) ((fun _ _ => (1 : ℚ)) i j))
            (fun j => sdrVal false (1 / ((1 : ℕ) : ℚ)) ((fun _ _ => (1 : ℚ)) i j))) /
        ((1 : ℕ) : ℚ)) / 2 :=
  (claim_C4_theta_is_half_mean_self_dot 1 1 (fun _ _ => 1) (fun _ => [0])
    (le_refl 1) (fun i j => ⟨by norm_num, by norm_num⟩)).2.2.1

/-- Claim C5: for every `kw ≥ 1`, `kv`, `n`, `theta` and non-negative
`input_scaling`, a single match-probability trial builds exactly 4
weight-like vectors (symmetric range `1/kw`) and 1000 non-negative
input-like vectors (range `2*input_scaling/kw`), counts the entries of
the full `1000 × 4` cross dot-product matrix that are `≥ theta`, and
returns `(count/4000, count, 4000)`; hence `total_comparisons = 4000`
and `0 ≤ fraction_matched ≤ 1`. -/
theorem claim_C5_match_trial_shape (kw kv n : ℕ) (theta s : ℚ)
    (uw : ℕ → ℕ → ℚ) (pw : ℕ → List ℕ)
    (ui : ℕ → ℕ → ℚ) (pin : ℕ → List ℕ)
    (hkw : 1 ≤ kw) (hs : 0 ≤ s)
    (huw : ∀ i j, 0 ≤ uw i j ∧ uw i j ≤ 1)
    (hui : ∀ i j, 0 ≤ ui i j ∧ ui i j ≤ 1) :
    (return_matches kw kv n theta s uw pw ui pin).2.2 = 4000 ∧
    (return_matches kw kv n theta s uw pw ui pin).2.1 =
      matchCount n 4 1000 theta
        (get_sparse_tensor kw n 4 false (1 / (kw : ℚ)) uw pw)
        (get_sparse_tensor kv n 1000 true (2 * s / (kw : ℚ)) ui pin) ∧
    (return_matches kw kv n theta s uw pw ui pin).2.1 ≤ 4000 ∧
    (return_matches kw kv n theta s uw pw ui pin).1 =
      ((return_matches kw kv n theta s uw pw ui pin).2.1 : ℚ) / 4000 ∧
    0 ≤ (return_matches kw kv n theta s uw pw ui pin).1 ∧
    (return_matches kw kv n theta s uw pw ui pin).1 ≤ 1 ∧
    (∀ i j, -(1 / (kw : ℚ)) ≤
        get_sparse_tensor kw n 4 false (1 / (kw : ℚ)) uw pw i j ∧
      get_sparse_tensor kw n 4 false (1 / (kw : ℚ)) uw pw i j ≤
        1 / (kw : ℚ)) ∧
    (∀ i j, 0 ≤ get_sparse_tensor kv n 1000 true (2 * s / (kw : ℚ)) ui pin i j ∧
      get_sparse_tensor kv n 1000 true (2 * s / (kw : ℚ)) ui pin i j ≤
        2 * s / (kw : ℚ)) := by
  have hmc : matchCount n 4 1000 theta
      (get_sparse_tensor kw n 4 false (1 / (kw : ℚ)) uw pw)
      (get_sparse_tensor kv n 1000 true (2 * s / (kw : ℚ)) ui pin)
      ≤ 4000 := by
    have := matchCount_le n 4 1000 theta
      (get_sparse_tensor kw n 4 false (1 / (kw : ℚ)) uw pw)
      (get_sparse_tensor kv n 1000 true (2 * s / (kw : ℚ)) ui pin)
    omega
  rw [return_matches_eq]
  refine ⟨rfl, rfl, hmc, rfl, ?_, ?_, ?_, ?_⟩
  · exact div_nonneg (Nat.cast_nonneg _) (by norm_num)
  · rw [div_le_one (by norm_num)]
    exact_mod_cast hmc
  · intro i j
    exact get_sparse_tensor_bounds_false kw n 4 _ uw pw (by positivity) huw i j
  · intro i j
    exact get_sparse_tensor_bounds_true kv n 1000 _ ui pin (by positivity) hui i j

theorem claim_C5_match_trial_shape_witness :
    (return_matches 1 1 1 0 1 (fun _ _ => 1) (fun _ => [0])
      (fun _ _ => 1) (fun _ => [0])).2.2 = 4000 :=
  (claim_C5_match_trial_shape 1 1 1 0 1 (fun _ _ => 1) (fun _ => [0])
    (fun _ _ => 1) (fun _ => [0]) (le_refl 1) (by norm_num)
    (fun i j => ⟨by norm_num, by norm_num⟩)
    (fun i j => ⟨by norm_num, by norm_num⟩)).1

/-- Claim C9: if the summed `total_comparisons` of an experiment
aggregator is zero — which happens exactly when the trial count is `0`,
since every trial contributes a positive total — the final probability
computation `float(num) / total` raises `ZeroDivisionError` (Python
raises on float division by zero); it never silently returns NaN or `0`.
This holds for both the match-probability aggregator and the
false-negative aggregator. -/
theorem claim_C9_zero_trials_zero_division (margs : MPArgs) (RM : MPRand)
    (fargs : FNArgs) (RF : FNRand)
    (hm : margs.n_trials = 0) (hf : fargs.n_trials = 0) :
    compute_match_probability margs RM = .error "ZeroDivisionError" ∧
    compute_false_negatives fargs RF = .error "ZeroDivisionError" := by
  constructor
  · simp only [compute_match_probability, hm]
    rfl
  · simp only [compute_false_negatives, hf]
    rfl

theorem claim_C9_zero_trials_zero_division_witness :
    compute_match_probability ⟨1, 1, 1, 0, 0, 1, []⟩
        ⟨fun _ _ _ => 1, fun _ _ => [0], fun _ _ _ => 1, fun _ _ => [0]⟩ =
      .error "ZeroDivisionError" ∧
    compute_false_negatives ⟨1, 1, 0, 0, 0, []⟩
        ⟨fun _ _ => 1, fun _ => [0], fun _ _ _ => 1, fun _ _ => [0],
          fun _ _ => [0]⟩ =
      .error "ZeroDivisionError" :=
  claim_C9_zero_trials_zero_division ⟨1, 1, 1, 0, 0, 1, []⟩
    ⟨fun _ _ _ => 1, fun _ _ => [0], fun _ _ _ => 1, fun _ _ => [0]⟩
    ⟨1, 1, 0, 0, 0, []⟩
    ⟨fun _ _ => 1, fun _ => [0], fun _ _ _ => 1, fun _ _ => [0],
      fun _ _ => [0]⟩ rfl rfl

/-- Claim C10: the noisy-variant builder draws each variant's zeroing
indices from a permutation of `range kw` and uses them to index the list
of the source row's non-zero positions, so it is only safe when that list
has at least `kw` entries.  Concrete unsafe input: `kw = 2 > n = 1`, so
the generated weight row is dense with a single non-zero position, and
with `noise_pct = 1` the drawn index `1` is looked up past the end of the
one-element non-zero-position list, raising `IndexError`. -/
theorem claim_C10_index_fault_when_kw_exceeds_nonzeros :
    (nzIndices 1 (get_sparse_tensor 2 1 1 false (1 / 2) (fun _ _ => 1)
      (fun _ => [0]) 0)).length = 1 ∧
    0 < numberToZero 1 2 ∧
    get_permuted_tensors
      (get_sparse_tensor 2 1 1 false (1 / 2) (fun _ _ => 1) (fun _ => [0]) 0)
      2 1 1 1 (fun _ => [0, 1]) = .error "IndexError" := by
  refine ⟨?_, ?_, ?_⟩
  · norm_num [nzIndices, get_sparse_tensor, sdrVal, uniformVal,
      List.range_succ, List.range_zero]
  · norm_num [numberToZero, pyRound]
  · simp only [get_permuted_tensors]
    norm_num [numberToZero, pyRound, buildVariants, zeroVariant, nzIndices,
      get_sparse_tensor, sdrVal, uniformVal, List.range_succ, List.range_zero]

/-- Claim C8: the noisy-variant builder never mutates its source row.  In
the memory-level model the source row occupies addresses
`wOff, …, wOff + n - 1`; `w2 = w.repeat(m2, 1)` copies it into a fresh
disjoint buffer, every write of the zeroing loops lands in that buffer,
and so on any successful run the final store agrees with the initial
store on every entry of the source row. -/
theorem claim_C8_source_row_unchanged (wOff n kw m2 : ℕ) (noise_pct : ℚ)
    (perms : ℕ → List ℕ) (h h' : ℕ → ℚ)
    (hok : get_permuted_tensors_heap wOff n kw m2 noise_pct perms h = .ok h')
    (j : ℕ) (hj : j < n) :
    h' (wOff + j) = h (wOff + j) := by
  simp only [get_permuted_tensors_heap] at hok
  have hfr := heapVariantsLoop_frame (wOff + n) n _ _ perms m2 _ _ hok
    (wOff + j) (by omega)
  rw [hfr, heapRepeat_frame _ _ _ _ _ _ (by omega)]

theorem claim_C8_source_row_unchanged_witness :
    heapRepeat (fun _ => (1 : ℚ)) 0 1 1 1 (0 + 0) = (fun _ => (1 : ℚ)) (0 + 0) :=
  claim_C8_source_row_unchanged 0 1 1 1 0 (fun _ => [0]) (fun _ => 1)
    (heapRepeat (fun _ => (1 : ℚ)) 0 1 1 1)
    (by norm_num [get_permuted_tensors_heap, heapVariantsLoop,
      heapZeroVariant, numberToZero, pyRound]) 0 (by norm_num)

/-- Claim C7: for every source row with at least `kw` non-zero positions,
corruption fraction `p` and variant count `m2`, the noisy-variant builder
returns `m2` rows; the `i`-th is the source row with exactly
`min (round (p * kw)) kw` of the source's non-zero positions set to zero,
the positions drawn without replacement (from the `i`-th fresh random
permutation, so each variant has its own independent draw). -/
theorem claim_C7_noisy_variant_shape (row : ℕ → ℚ) (kw n m2 : ℕ)
    (p : ℚ) (perms : ℕ → List ℕ)
    (hnz : kw ≤ (nzIndices n row).length)
    (hperm : ∀ i, List.Perm (perms i) (List.range kw)) :
    ∃ vs, get_permuted_tensors row kw n m2 p perms = .ok vs ∧
      vs.length = m2 ∧
      ∀ i, i < m2 →
        ∃ zs : List ℕ,
          zs = ((perms i).take (numberToZero p kw)).filterMap
            (nzIndices n row).get? ∧
          zs.Nodup ∧
          zs.length = min (numberToZero p kw) kw ∧
          (∀ q ∈ zs, row q ≠ 0) ∧
          vs.get? i = some (fun q => if q ∈ zs then 0 else row q) := by
  obtain ⟨vs, hgpt, hlen, hget⟩ :=
    get_permuted_tensors_ok row kw n m2 p perms hnz hperm
  refine ⟨vs, hgpt, hlen, ?_⟩
  intro i hi
  have hpnd : (perms i).Nodup := (hperm i).nodup_iff.mpr (List.nodup_range kw)
  have hjsnd : ((perms i).take (numberToZero p kw)).Nodup :=
    (List.take_sublist _ _).nodup hpnd
  have hb : ∀ x ∈ (perms i).take (numberToZero p kw),
      x < (nzIndices n row).length := by
    intro x hx
    have hxk : x < kw := by
      simpa using (hperm i).subset (List.mem_of_mem_take hx)
    omega
  have hnznd : (nzIndices n row).Nodup := (List.nodup_range n).filter _
  refine ⟨((perms i).take (numberToZero p kw)).filterMap
    (nzIndices n row).get?, rfl,
    filterMap_get_nodup _ hnznd _ hjsnd hb, ?_, ?_, hget i hi⟩
  · rw [filterMap_get_length _ _ hb, List.length_take, (hperm i).length_eq,
      List.length_range]
  · intro q hq
    have hqnz : q ∈ nzIndices n row := filterMap_get_subset _ _ q hq
    unfold nzIndices at hqnz
    have := (List.mem_filter.mp hqnz).2
    simpa using this

theorem claim_C7_noisy_variant_shape_witness :
    ∃ vs, get_permuted_tensors (fun _ => (1 : ℚ)) 1 1 1 0 (fun _ => [0]) =
      .ok vs ∧ vs.length = 1 := by
  obtain ⟨vs, hvs, hlen, -⟩ := claim_C7_noisy_variant_shape
    (fun _ => (1 : ℚ)) 1 1 1 0 (fun _ => [0])
    (by norm_num [nzIndices, List.range_succ, List.range_zero])
    (fun i => by simpa [List.range_succ, List.range_zero] using
      List.Perm.refl [0])
  exact ⟨vs, hvs, hlen⟩

/-- Counterexample to claim C6 as stated ("for every kw, noise_pct, n and
theta"): at `kw = 2`, `noise_pct = 1`, `n = 1`, `theta = 0` the generated
weight row is dense with a single non-zero position, the variant builder
indexes past the end of the non-zero-position list, and the trial raises
`IndexError` instead of returning a `(count/10, count, 10)` triple. -/
lemma buildVariants_error_persists (row : ℕ → ℚ) (nz : List ℕ) (ntz : ℕ)
    (perms : ℕ → List ℕ) (e : String) (m : ℕ)
    (h : buildVariants row nz ntz perms m = .error e) :
    ∀ m', m ≤ m' → buildVariants row nz ntz perms m' = .error e := by
  intro m'
  induction m' with
  | zero =>
    intro hm
    have hm0 : m = 0 := by omega
    subst hm0
    exact h
  | succ m' ih =>
    intro hm
    by_cases hmm : m ≤ m'
    · rw [buildVariants, ih hmm]
    · have hms : m = m' + 1 := by omega
      subst hms
      exact h

theorem claim_C6_cex_trial_faults :
    return_false_negatives 2 1 1 0 (fun _ _ => 1) (fun _ => [0])
      (fun _ => [0, 1]) = .error "IndexError" := by
  have h1 : buildVariants
      (get_sparse_tensor 2 1 1 false (1 / ((2 : ℕ) : ℚ)) (fun _ _ => 1)
        (fun _ => [0]) 0)
      (nzIndices 1
        (get_sparse_tensor 2 1 1 false (1 / ((2 : ℕ) : ℚ)) (fun _ _ => 1)
          (fun _ => [0]) 0))
      (numberToZero 1 2) (fun _ => [0, 1]) 1 = .error "IndexError" := by
    norm_num [buildVariants, zeroVariant, nzIndices, get_sparse_tensor,
      sdrVal, uniformVal, numberToZero, pyRound, List.range_succ,
      List.range_zero]
  have h10 := buildVariants_error_persists _ _ _ _ _ _ h1 10 (by norm_num)
  have hg : get_permuted_tensors
      (get_sparse_tensor 2 1 1 false (1 / ((2 : ℕ) : ℚ)) (fun _ _ => 1)
        (fun _ => [0]) 0) 2 1 10 1 (fun _ => [0, 1]) = .error "IndexError" := by
    show buildVariants
      (get_sparse_tensor 2 1 1 false (1 / ((2 : ℕ) : ℚ)) (fun _ _ => 1)
        (fun _ => [0]) 0)
      (nzIndices 1
        (get_sparse_tensor 2 1 1 false (1 / ((2 : ℕ) : ℚ)) (fun _ _ => 1)
          (fun _ => [0]) 0))
      (numberToZero 1 2) (fun _ => [0, 1]) 10 = _
    exact h10
  show (match get_permuted_tensors
      (get_sparse_tensor 2 1 1 false (1 / ((2 : ℕ) : ℚ)) (fun _ _ => 1)
        (fun _ => [0]) 0) 2 1 10 1 (fun _ => [0, 1]) with
    | Except.error e => Except.error e
    | Except.ok input_vectors =>
      Except.ok ((((input_vectors.filter (fun v => decide ((0 : ℚ) ≤ dotRow 1 v
          (get_sparse_tensor 2 1 1 false (1 / ((2 : ℕ) : ℚ)) (fun _ _ => 1)
            (fun _ => [0]) 0)))).length : ℕ) : ℚ) / ((10 : ℕ) : ℚ),
        (input_vectors.filter (fun v => decide ((0 : ℚ) ≤ dotRow 1 v
          (get_sparse_tensor 2 1 1 false (1 / ((2 : ℕ) : ℚ)) (fun _ _ => 1)
            (fun _ => [0]) 0)))).length,
        10)) = Except.error "IndexError"
  rw [hg]

/-- Claim C6 (amended: the weight row must have at least `kw` non-zero
entries for the variant builder to be safe, so `1 ≤ kw ≤ n` and generic
draws are assumed; cf. C10): a single false-negative trial generates one
weight-like row (sparsity `kw`, dimensionality `n`, range `1/kw`), builds
exactly 10 noisy variants of it, counts how many variant-versus-original
dot products are `≥ theta`, and returns `(count/10, count, 10)` with
`count` an integer in `[0, 10]`. -/
theorem claim_C6_false_negative_trial (kw n : ℕ) (noise_pct theta : ℚ)
    (uw : ℕ → ℕ → ℚ) (pw : ℕ → List ℕ) (vperms : ℕ → List ℕ)
    (hkw : 1 ≤ kw) (hkn : kw ≤ n)
    (hu : ∀ j, uw 0 j ≠ 1 / 2)
    (hp : List.Perm (pw 0) (List.range n))
    (hvp : ∀ i, List.Perm (vperms i) (List.range kw)) :
    ∃ vs c, get_permuted_tensors
        (get_sparse_tensor kw n 1 false (1 / (kw : ℚ)) uw pw 0) kw n 10
        noise_pct vperms = .ok vs ∧
      vs.length = 10 ∧
      c = (vs.filter (fun v => decide (theta ≤ dotRow n v
        (get_sparse_tensor kw n 1 false (1 / (kw : ℚ)) uw pw 0)))).length ∧
      c ≤ 10 ∧
      return_false_negatives kw noise_pct n theta uw pw vperms =
        .ok ((c : ℚ) / 10, c, 10) := by
  obtain ⟨vs, hgpt, hlen, hret⟩ := return_false_negatives_ok kw n noise_pct
    theta uw pw vperms hkw hkn hu hp hvp
  refine ⟨vs, _, hgpt, hlen, rfl, ?_, hret⟩
  calc (vs.filter (fun v => decide (theta ≤ dotRow n v
        (get_sparse_tensor kw n 1 false (1 / (kw : ℚ)) uw pw 0)))).length
      ≤ vs.length := List.length_filter_le _ _
    _ = 10 := hlen

theorem claim_C6_false_negative_trial_witness :
    ∃ vs c, get_permuted_tensors
        (get_sparse_tensor 1 1 1 false (1 / ((1 : ℕ) : ℚ)) (fun _ _ => 1)
          (fun _ => [0]) 0) 1 1 10 0 (fun _ => [0]) = .ok vs ∧
      vs.length = 10 ∧
      c = (vs.filter (fun v => decide ((0 : ℚ) ≤ dotRow 1 v
        (get_sparse_tensor 1 1 1 false (1 / ((1 : ℕ) : ℚ)) (fun _ _ => 1)
          (fun _ => [0]) 0)))).length ∧
      c ≤ 10 ∧
      return_false_negatives 1 0 1 0 (fun _ _ => 1) (fun _ => [0])
          (fun _ => [0]) =
        .ok ((c : ℚ) / 10, c, 10) :=
  claim_C6_false_negative_trial 1 1 0 0 (fun _ _ => 1) (fun _ => [0])
    (fun _ => [0]) (le_refl 1) (le_refl 1) (fun j => by norm_num)
    (by simp [List.range_succ, List.range_zero])
    (fun i => by simp [List.range_succ, List.range_zero])

/-- Claim C1 fails on the code: the false-negative sweep can never
populate the output array.  `compute_false_negatives` stores its result
under the key `"pctFalse"` (scalar_sdrs.py line 227) while the reduction
loop reads `r["pct_false"]` (line 279), so for every non-empty noise list
— with any worker count, `1` as well as `> 1` — either an experiment
fails upstream or the reduction raises `KeyError` on the first collected
record; the sweep never returns a result array. -/
theorem claim_C1_reduction_key_error (listof_noise : List ℚ)
    (kw num_workers n_trials n : ℕ) (RR : ℕ → FNRand)
    (hne : listof_noise ≠ []) :
    ∀ errs : ℕ → ℚ,
      compute_false_negatives_parallel listof_noise kw num_workers n_trials n
        RR ≠ .ok errs := by
  intro errs hok
  simp only [compute_false_negatives_parallel, ite_self] at hok
  cases hre : runExperiments RR 0 (fn_sweep_args listof_noise kw n_trials n)
    with
  | error e => simp only [hre] at hok; cases hok
  | ok rs =>
    simp only [hre] at hok
    have hlen : (fn_sweep_args listof_noise kw n_trials n).length =
        listof_noise.length := by
      simp [fn_sweep_args]
    have hne' : fn_sweep_args listof_noise kw n_trials n ≠ [] := by
      intro h0
      rw [h0] at hlen
      have hlz : listof_noise.length = 0 := by simpa using hlen.symm
      exact hne (List.length_eq_zero.mp hlz)
    have hextra : ∀ b ∈ fn_sweep_args listof_noise kw n_trials n,
        b.extra = ([] : List (String × ℚ)) := by
      intro b hb
      simp only [fn_sweep_args, List.mem_map] at hb
      obtain ⟨ni, -, rfl⟩ := hb
      rfl
    obtain ⟨a, rest, hcons⟩ := List.exists_cons_of_ne_nil hne'
    rw [hcons] at hre
    obtain ⟨r, rs', hrs, hcfn⟩ := runExperiments_cons RR 0 a rest rs hre
    obtain ⟨v, hrextra⟩ := compute_false_negatives_ok_extra a (RR 0) r hcfn
    have haeq : a.extra = [] := by
      apply hextra
      rw [hcons]
      exact List.mem_cons_self a rest
    have hnone : dget r.extra "pct_false" = none := by
      rw [hrextra]
      exact dget_pctFalse_mismatch a.extra v haeq
    rw [hrs, scatterResults_keyerror r rs' hnone] at hok
    cases hok

theorem claim_C1_reduction_key_error_witness :
    compute_false_negatives_parallel [(1 : ℚ) / 2] 1 1 1 1
      (fun _ => ⟨fun _ _ => 1, fun _ => [0], fun _ _ _ => 1,
        fun _ _ => [0], fun _ _ => [0]⟩) ≠ .ok (fun _ => 0) :=
  claim_C1_reduction_key_error [(1 : ℚ) / 2] 1 1 1 1
    (fun _ => ⟨fun _ _ => 1, fun _ => [0], fun _ _ _ => 1,
      fun _ _ => [0], fun _ _ => [0]⟩)
    (List.cons_ne_nil _ _) (fun _ => 0)

/-- Claim C2: for every trial count `n_trials ≥ 1` (and, for the
false-negative aggregator, a valid configuration in the sense of C6/C10),
each experiment aggregator returns the pooled-count estimate: the sum of
`count_matched` over all repetitions divided by the sum of
`total_comparisons` over all repetitions — counts summed first, one
division at the end; the false-negative aggregator reports `1` minus this
pooled fraction. -/
theorem claim_C2_pooled_count_aggregation (margs : MPArgs) (RM : MPRand)
    (fargs : FNArgs) (RF : FNRand)
    (hmt : 1 ≤ margs.n_trials) (hft : 1 ≤ fargs.n_trials)
    (hkw : 1 ≤ fargs.kw) (hkn : fargs.kw ≤ fargs.n)
    (hu : ∀ t j, RF.trialU t 0 j ≠ 1 / 2)
    (hp : ∀ t, List.Perm (RF.trialP t 0) (List.range fargs.n))
    (hvp : ∀ t i, List.Perm (RF.trialPerms t i) (List.range fargs.kw)) :
    (∃ margs', compute_match_probability margs RM = .ok margs' ∧
      dget margs'.extra "pct_matches" = some
        ((((∑ t ∈ Finset.range margs.n_trials,
            (return_matches margs.kw (resolve_kv margs.k margs.n) margs.n
              margs.theta margs.input_scaling (RM.trialUW t) (RM.trialPW t)
              (RM.trialUI t) (RM.trialPI t)).2.1) : ℕ) : ℚ) /
         (((∑ t ∈ Finset.range margs.n_trials,
            (return_matches margs.kw (resolve_kv margs.k margs.n) margs.n
              margs.theta margs.input_scaling (RM.trialUW t) (RM.trialPW t)
              (RM.trialUI t) (RM.trialPI t)).2.2) : ℕ) : ℚ))) ∧
    (∃ fargs', compute_false_negatives fargs RF = .ok fargs' ∧
      dget fargs'.extra "pctFalse" = some
        (1 - (((∑ t ∈ Finset.range fargs.n_trials,
            fnNumOf (return_false_negatives fargs.kw fargs.noise_pct fargs.n
              (get_theta fargs.kw getThetaDefaultTrials RF.thetaU RF.thetaP).1
              (RF.trialU t) (RF.trialP t) (RF.trialPerms t))) : ℕ) : ℚ) /
          (((∑ t ∈ Finset.range fargs.n_trials,
            fnTotOf (return_false_negatives fargs.kw fargs.noise_pct fargs.n
              (get_theta fargs.kw getThetaDefaultTrials RF.thetaU RF.thetaP).1
              (RF.trialU t) (RF.trialP t) (RF.trialPerms t))) : ℕ) : ℚ))) := by
  constructor
  · have hloop := mp_loop_eq margs.kw (resolve_kv margs.k margs.n) margs.n
      margs.theta margs.input_scaling RM margs.n_trials
    have htot : (∑ t ∈ Finset.range margs.n_trials,
        (return_matches margs.kw (resolve_kv margs.k margs.n) margs.n
          margs.theta margs.input_scaling (RM.trialUW t) (RM.trialPW t)
          (RM.trialUI t) (RM.trialPI t)).2.2) = margs.n_trials * 4000 := by
      rw [Finset.sum_congr rfl (fun t _ => by rw [return_matches_eq])]
      rw [Finset.sum_const, Finset.card_range, smul_eq_mul]
    refine ⟨{ margs with extra := dset margs.extra "pct_matches" _ }, ?_,
      dget_dset_same _ _ _⟩
    simp only [compute_match_probability, hloop]
    rw [if_neg (by rw [htot]; omega)]
  · have htr : ∀ t, ∃ c : ℕ,
        return_false_negatives fargs.kw fargs.noise_pct fargs.n
          (get_theta fargs.kw getThetaDefaultTrials RF.thetaU RF.thetaP).1
          (RF.trialU t) (RF.trialP t) (RF.trialPerms t) =
        .ok ((c : ℚ) / 10, c, 10) := by
      intro t
      obtain ⟨vs, -, -, hret⟩ := return_false_negatives_ok fargs.kw fargs.n
        fargs.noise_pct
        (get_theta fargs.kw getThetaDefaultTrials RF.thetaU RF.thetaP).1
        (RF.trialU t) (RF.trialP t) (RF.trialPerms t)
        hkw hkn (hu t) (hp t) (hvp t)
      exact ⟨_, hret⟩
    have hok10 : ∀ t, t < fargs.n_trials → ∃ r,
        return_false_negatives fargs.kw fargs.noise_pct fargs.n
          (get_theta fargs.kw getThetaDefaultTrials RF.thetaU RF.thetaP).1
          (RF.trialU t) (RF.trialP t) (RF.trialPerms t) = .ok r := by
      intro t _
      obtain ⟨c, hc⟩ := htr t
      exact ⟨_, hc⟩
    have hloop := fn_loop_eq fargs.kw fargs.n fargs.noise_pct
      (get_theta fargs.kw getThetaDefaultTrials RF.thetaU RF.thetaP).1 RF
      fargs.n_trials hok10
    have htot : (∑ t ∈ Finset.range fargs.n_trials,
        fnTotOf (return_false_negatives fargs.kw fargs.noise_pct fargs.n
          (get_theta fargs.kw getThetaDefaultTrials RF.thetaU RF.thetaP).1
          (RF.trialU t) (RF.trialP t) (RF.trialPerms t))) =
        fargs.n_trials * 10 := by
      rw [Finset.sum_congr rfl (fun t _ => by
        obtain ⟨c, hc⟩ := htr t
        rw [hc]
        rfl)]
      rw [Finset.sum_const, Finset.card_range, smul_eq_mul]
    refine ⟨{ fargs with extra := dset fargs.extra "pctFalse" _ }, ?_,
      dget_dset_same _ _ _⟩
    simp only [compute_false_negatives, hloop]
    rw [if_neg (by rw [htot]; omega)]

theorem claim_C2_pooled_count_aggregation_witness :
    (∃ margs', compute_match_probability ⟨1, 1, 1, 0, 1, 1, []⟩
        ⟨fun _ _ _ => 1, fun _ _ => [0], fun _ _ _ => 1, fun _ _ => [0]⟩ =
      .ok margs') ∧
    (∃ fargs', compute_false_negatives ⟨1, 1, 0, 1, 0, []⟩
        ⟨fun _ _ => 1, fun _ => [0], fun _ _ _ => 1, fun _ _ => [0],
          fun _ _ => [0]⟩ = .ok fargs') := by
  obtain ⟨⟨m', hm', -⟩, ⟨f', hf', -⟩⟩ := claim_C2_pooled_count_aggregation
    ⟨1, 1, 1, 0, 1, 1, []⟩
    ⟨fun _ _ _ => 1, fun _ _ => [0], fun _ _ _ => 1, fun _ _ => [0]⟩
    ⟨1, 1, 0, 1, 0, []⟩
    ⟨fun _ _ => 1, fun _ => [0], fun _ _ _ => 1, fun _ _ => [0],
      fun _ _ => [0]⟩
    (le_refl 1) (le_refl 1) (le_refl 1) (le_refl 1)
    (fun t j => by norm_num)
    (fun t => by show List.Perm [0] (List.range 1); decide)
    (fun t i => by show List.Perm [0] (List.range 1); decide)
  exact ⟨⟨m', hm'⟩, ⟨f', hf'⟩⟩
